import Mathlib

/-!
# Verification of the redis-pool-store session adapter

Shallow embedding of `src/redis-pool-store/src/lib.rs`: the `RedisPoolStore`
implementation of the `SessionStore` trait (`save` / `load` / `delete`), its
key construction, its error taxonomy and mapping, and a model of the
MessagePack-style codec (`rmp_serde`) and the `Record` type, whose sources are
not part of this crate.

Machine integers are modelled as `Int`/`Nat` with explicit reductions modulo
`2^w` where the Rust code performs width-changing casts (notably the
`expire as usize` cast in `save`).
-/

namespace RedisPoolStore

/-- Big-endian byte encoding of a natural number in `w` bytes
(most significant byte first). Used by the modelled binary codec. -/
def beBytes : Nat → Nat → List Nat
  | 0, _ => []
  | w + 1, n => (n / 256 ^ w) % 256 :: beBytes w n

/-- Big-endian reader: consumes `w` bytes from the front of the list,
accumulating into `acc`; returns the value and the unconsumed suffix. -/
def readBE : Nat → Nat → List Nat → Option (Nat × List Nat)
  | 0, acc, rest => some (acc, rest)
  | _ + 1, _, [] => none
  | w + 1, acc, b :: rest => readBE w (acc * 256 + b) rest

theorem beBytes_length (w n : Nat) : (beBytes w n).length = w := by
  induction w generalizing n with
  | zero => rfl
  | succ w ih => simp [beBytes, ih]

theorem readBE_beBytes (w : Nat) :
    ∀ (n acc : Nat) (rest : List Nat),
      readBE w acc (beBytes w n ++ rest) = some (acc * 256 ^ w + n % 256 ^ w, rest) := by
  induction w with
  | zero =>
      intro n acc rest
      simp [beBytes, readBE, Nat.mod_one]
  | succ w ih =>
      intro n acc rest
      have key : n % 256 ^ (w + 1) = (n / 256 ^ w) % 256 * 256 ^ w + n % 256 ^ w := by
        have h1 : 256 ^ (w + 1) = 256 ^ w * 256 := by ring
        rw [h1, Nat.mod_mul]
        ring
      simp only [beBytes, List.cons_append, readBE]
      rw [show (beBytes w n).append rest = beBytes w n ++ rest from rfl, ih, key]
      ring_nf

theorem readBE_beBytes_of_lt {w n : Nat} (h : n < 256 ^ w) (rest : List Nat) :
    readBE w 0 (beBytes w n ++ rest) = some (n, rest) := by
  rw [readBE_beBytes]
  simp [Nat.mod_eq_of_lt h]

/-- Two's-complement reading of a `w`-byte unsigned value, as done for the
signed MessagePack integer formats. -/
def decodeTwos (w : Nat) (m : Nat) : Int :=
  if m < 2 ^ (8 * w - 1) then (m : Int) else (m : Int) - 2 ^ (8 * w)

theorem decodeTwos_emod_i64 (n : Int) (h1 : -(2 ^ 63) ≤ n) (h2 : n < 2 ^ 63) :
    decodeTwos 8 ((n % (2 ^ 64 : Int)).toNat) = n := by
  simp only [decodeTwos]
  norm_num
  split <;> omega

theorem decodeTwos_emod_i128 (n : Int) (h1 : -(2 ^ 127) ≤ n) (h2 : n < 2 ^ 127) :
    decodeTwos 16 ((n % (2 ^ 128 : Int)).toNat) = n := by
  simp only [decodeTwos]
  norm_num
  split <;> omega

theorem emod_toNat_lt_i64 (n : Int) : ((n % (2 ^ 64 : Int)).toNat) < 256 ^ 8 := by
  norm_num
  omega

theorem emod_toNat_lt_i128 (n : Int) : ((n % (2 ^ 128 : Int)).toNat) < 256 ^ 16 := by
  norm_num
  omega

/-! ## The session record and its payload values

Modelled from the spec: the `Record` type of `tower-sessions-core` and the
`rmp_serde` (MessagePack) codec are external to `src/`. The spec describes the
record as an identifier (`i128`), an open-ended mapping of string keys to
JSON-like session data values, and an absolute expiry instant interpretable as
integer seconds since epoch; the wire encoding is a compact binary
self-describing (tag + length + payload) serialization of those three fields,
required to round-trip exactly. Numbers in the payload are modelled as
integers. -/

/-- Modelled from the spec: a JSON-like session data value
(`serde_json::Value`, floats omitted from the model). -/
inductive JVal where
  | null : JVal
  | bool (b : Bool) : JVal
  | int (n : Int) : JVal
  | str (s : String) : JVal
  | arr (xs : List JVal) : JVal
  | obj (ps : List (String × JVal)) : JVal

/-- Modelled from the spec: the session record persisted by the adapter —
`id` (an `i128` identifier), `data` (the open-ended payload mapping), and
`expiry_date` as an absolute unix timestamp in seconds
(`OffsetDateTime::unix_timestamp`). -/
structure Record where
  id : Int
  data : List (String × JVal)
  expiry_date : Int

/-- Encode a character list, each character as a 4-byte big-endian scalar
value (the model's fixed-width stand-in for UTF-8). -/
def encodeChars : List Char → List Nat
  | [] => []
  | c :: cs => beBytes 4 c.toNat ++ encodeChars cs

/-- Modelled from the spec: a length-prefixed string (tag 219, 4-byte length,
then the characters). -/
def encodeStr (s : String) : Except String (List Nat) :=
  if s.data.length < 2 ^ 32 then
    .ok (219 :: beBytes 4 s.data.length ++ encodeChars s.data)
  else .error "string too long"

mutual

/-- Modelled from the spec: the MessagePack-style encoding of a payload value,
tag byte followed by a fixed-width or length-prefixed body. Fails when a value
exceeds the machine-width limits of the wire format. -/
def encodeVal : JVal → Except String (List Nat)
  | .null => .ok [192]
  | .bool false => .ok [194]
  | .bool true => .ok [195]
  | .int n =>
      if -(2 ^ 63) ≤ n ∧ n < 2 ^ 63 then
        .ok (211 :: beBytes 8 (n % (2 ^ 64 : Int)).toNat)
      else .error "integer out of range"
  | .str s => encodeStr s
  | .arr xs =>
      if xs.length < 2 ^ 32 then do
        let body ← encodeValList xs
        .ok (221 :: beBytes 4 xs.length ++ body)
      else .error "array too long"
  | .obj ps =>
      if ps.length < 2 ^ 32 then do
        let body ← encodePairList ps
        .ok (223 :: beBytes 4 ps.length ++ body)
      else .error "map too long"

/-- Concatenated encodings of a list of values (an array body). -/
def encodeValList : List JVal → Except String (List Nat)
  | [] => .ok []
  | v :: vs => do
      let hd ← encodeVal v
      let tl ← encodeValList vs
      .ok (hd ++ tl)

/-- Concatenated key/value encodings of a list of pairs (a map body). -/
def encodePairList : List (String × JVal) → Except String (List Nat)
  | [] => .ok []
  | (k, v) :: ps => do
      let ks ← encodeStr k
      let vs ← encodeVal v
      let tl ← encodePairList ps
      .ok (ks ++ vs ++ tl)

end

/-- Modelled from the spec: the full record encoding (`rmp_serde::to_vec`) —
a 3-element array of the record's fields in declaration order: the `i128`
identifier (tag 212, 16 bytes two's complement), the data map, and the `i64`
expiry timestamp. -/
def encodeRecord (r : Record) : Except String (List Nat) := do
  if -(2 ^ 127) ≤ r.id ∧ r.id < 2 ^ 127 then
    if -(2 ^ 63) ≤ r.expiry_date ∧ r.expiry_date < 2 ^ 63 then
      let dataB ← encodeVal (.obj r.data)
      .ok (221 :: beBytes 4 3
            ++ (212 :: beBytes 16 (r.id % (2 ^ 128 : Int)).toNat)
            ++ dataB
            ++ (211 :: beBytes 8 (r.expiry_date % (2 ^ 64 : Int)).toNat))
    else .error "expiry out of range"
  else .error "identifier out of range"

/-- Read `k` characters, each a 4-byte big-endian scalar value. -/
def readChars : Nat → List Nat → Option (List Char × List Nat)
  | 0, rest => some ([], rest)
  | k + 1, rest => do
      let (m, r1) ← readBE 4 0 rest
      let (cs, r2) ← readChars k r1
      some (Char.ofNat m :: cs, r2)

/-- Read one length-prefixed string (tag 219). -/
def readStr : List Nat → Option (String × List Nat)
  | 219 :: rest => do
      let (len, r1) ← readBE 4 0 rest
      let (cs, r2) ← readChars len r1
      some (String.mk cs, r2)
  | _ => none

mutual

/-- Modelled from the spec: the MessagePack-style decoder for one payload
value. The fuel argument is a modelling artifact bounding the recursion
(`rmp_serde` bounds its own recursion depth); callers supply enough fuel that
it never runs out on input the encoder can produce. -/
def decodeVal : Nat → List Nat → Option (JVal × List Nat)
  | 0, _ => none
  | _ + 1, 192 :: rest => some (.null, rest)
  | _ + 1, 194 :: rest => some (.bool false, rest)
  | _ + 1, 195 :: rest => some (.bool true, rest)
  | _ + 1, 211 :: rest => do
      let (m, r1) ← readBE 8 0 rest
      some (.int (decodeTwos 8 m), r1)
  | _ + 1, 219 :: rest => do
      let (s, r1) ← readStr (219 :: rest)
      some (.str s, r1)
  | fuel + 1, 221 :: rest => do
      let (len, r1) ← readBE 4 0 rest
      let (xs, r2) ← decodeValList fuel len r1
      some (.arr xs, r2)
  | fuel + 1, 223 :: rest => do
      let (len, r1) ← readBE 4 0 rest
      let (ps, r2) ← decodePairList fuel len r1
      some (.obj ps, r2)
  | _ + 1, _ => none

/-- Decode exactly `k` consecutive values (an array body). -/
def decodeValList : Nat → Nat → List Nat → Option (List JVal × List Nat)
  | _, 0, rest => some ([], rest)
  | 0, _ + 1, _ => none
  | fuel + 1, k + 1, rest => do
      let (v, r1) ← decodeVal fuel rest
      let (vs, r2) ← decodeValList fuel k r1
      some (v :: vs, r2)

/-- Decode exactly `k` consecutive key/value pairs (a map body). -/
def decodePairList : Nat → Nat → List Nat → Option (List (String × JVal) × List Nat)
  | _, 0, rest => some ([], rest)
  | 0, _ + 1, _ => none
  | fuel + 1, k + 1, rest => do
      let (key, r1) ← readStr rest
      let (v, r2) ← decodeVal fuel r1
      let (ps, r3) ← decodePairList fuel k r2
      some ((key, v) :: ps, r3)

end

/-- Modelled from the spec: full record decoding (`rmp_serde::from_slice`):
parse the 3-element array of fields and require the input to be exactly
consumed; any mismatch is a decode failure. -/
def decodeRecord (bytes : List Nat) : Option Record :=
  match bytes with
  | 221 :: rest => do
      let (n, r0) ← readBE 4 0 rest
      if n = 3 then
        match r0 with
        | 212 :: r1 => do
            let (mid, r2) ← readBE 16 0 r1
            let (dv, r3) ← decodeVal (2 * r2.length + 2) r2
            match dv, r3 with
            | .obj ps, 211 :: r4 => do
                let (mexp, r5) ← readBE 8 0 r4
                if r5 = [] then
                  some ⟨decodeTwos 16 mid, ps, decodeTwos 8 mexp⟩
                else none
            | _, _ => none
        | _ => none
      else none
  | _ => none

theorem except_bind_ok {α β ε : Type} (a : α) (f : α → Except ε β) :
    (Except.ok a >>= f) = f a := rfl

theorem except_bind_err {α β ε : Type} (e : ε) (f : α → Except ε β) :
    ((Except.error e : Except ε α) >>= f) = .error e := rfl

theorem option_bind_some {α β : Type} (a : α) (f : α → Option β) :
    ((some a : Option α) >>= f) = f a := rfl

theorem char_toNat_lt_pow (c : Char) : c.toNat < 256 ^ 4 := by
  have := c.val.toNat_lt
  simp only [Char.toNat]
  norm_num
  omega

theorem readChars_encodeChars (cs : List Char) (rest : List Nat) :
    readChars cs.length (encodeChars cs ++ rest) = some (cs, rest) := by
  induction cs with
  | nil => simp [encodeChars, readChars]
  | cons c cs ih =>
      simp only [encodeChars, List.length_cons, List.append_assoc, readChars,
        readBE_beBytes_of_lt (char_toNat_lt_pow c), option_bind_some]
      simp [ih, Char.ofNat_toNat]

theorem encodeStr_ok {s : String} {bs : List Nat} (he : encodeStr s = .ok bs) :
    s.data.length < 2 ^ 32 ∧ bs = 219 :: beBytes 4 s.data.length ++ encodeChars s.data := by
  unfold encodeStr at he
  split at he
  · refine ⟨by assumption, ?_⟩
    injection he with h
    exact h.symm
  · exact Except.noConfusion he

theorem readStr_encodeStr {s : String} {bs : List Nat} (he : encodeStr s = .ok bs)
    (rest : List Nat) : readStr (bs ++ rest) = some (s, rest) := by
  obtain ⟨hlen, rfl⟩ := encodeStr_ok he
  have hlt : s.data.length < 256 ^ 4 := by
    have : (256 : Nat) ^ 4 = 2 ^ 32 := by norm_num
    omega
  simp only [List.cons_append, List.append_assoc, readStr,
    readBE_beBytes_of_lt hlt, option_bind_some, readChars_encodeChars]

mutual

/-- Size measure of a payload value, used to budget decoder fuel. -/
def sizeV : JVal → Nat
  | .null => 1
  | .bool _ => 1
  | .int _ => 1
  | .str _ => 1
  | .arr xs => sizeVL xs + 1
  | .obj ps => sizeVP ps + 1

/-- Size measure of an array body. -/
def sizeVL : List JVal → Nat
  | [] => 0
  | v :: vs => sizeV v + sizeVL vs + 1

/-- Size measure of a map body. -/
def sizeVP : List (String × JVal) → Nat
  | [] => 0
  | (_, v) :: ps => sizeV v + sizeVP ps + 1

end

theorem sizeV_pos (v : JVal) : 1 ≤ sizeV v := by
  cases v <;> simp [sizeV]

mutual

theorem sizeV_lt_twice_length (v : JVal) (bs : List Nat) (he : encodeVal v = .ok bs) :
    sizeV v < 2 * bs.length := by
  cases v with
  | null =>
      injection he with h
      subst h
      simp [sizeV]
  | bool b =>
      cases b <;>
        · injection he with h
          subst h
          simp [sizeV]
  | int n =>
      rw [encodeVal] at he
      split at he
      · injection he with h
        subst h
        simp [sizeV, beBytes_length]
      · exact Except.noConfusion he
  | str s =>
      rw [encodeVal] at he
      obtain ⟨hlen, rfl⟩ := encodeStr_ok he
      simp only [sizeV, List.length_cons, List.length_append, beBytes_length]
      omega
  | arr xs =>
      rw [encodeVal] at he
      split at he
      · cases hb : encodeValList xs with
        | error e => rw [hb, except_bind_err] at he; exact Except.noConfusion he
        | ok body =>
            rw [hb, except_bind_ok] at he
            injection he with h
            subst h
            have := sizeVL_le_twice_length xs body hb
            simp only [sizeV, List.length_cons, List.length_append, beBytes_length]
            omega
      · exact Except.noConfusion he
  | obj ps =>
      rw [encodeVal] at he
      split at he
      · cases hb : encodePairList ps with
        | error e => rw [hb, except_bind_err] at he; exact Except.noConfusion he
        | ok body =>
            rw [hb, except_bind_ok] at he
            injection he with h
            subst h
            have := sizeVP_le_twice_length ps body hb
            simp only [sizeV, List.length_cons, List.length_append, beBytes_length]
            omega
      · exact Except.noConfusion he

theorem sizeVL_le_twice_length (xs : List JVal) (bs : List Nat)
    (he : encodeValList xs = .ok bs) : sizeVL xs ≤ 2 * bs.length := by
  cases xs with
  | nil =>
      injection he with h
      subst h
      simp [sizeVL]
  | cons v vs =>
      rw [encodeValList] at he
      cases hv : encodeVal v with
      | error e => rw [hv, except_bind_err] at he; exact Except.noConfusion he
      | ok hd =>
          rw [hv, except_bind_ok] at he
          cases ht : encodeValList vs with
          | error e => rw [ht, except_bind_err] at he; exact Except.noConfusion he
          | ok tl =>
              rw [ht, except_bind_ok] at he
              injection he with h
              subst h
              have h1 := sizeV_lt_twice_length v hd hv
              have h2 := sizeVL_le_twice_length vs tl ht
              simp only [sizeVL, List.length_append]
              omega

theorem sizeVP_le_twice_length (ps : List (String × JVal)) (bs : List Nat)
    (he : encodePairList ps = .ok bs) : sizeVP ps ≤ 2 * bs.length := by
  cases ps with
  | nil =>
      injection he with h
      subst h
      simp [sizeVP]
  | cons p ps =>
      obtain ⟨k, v⟩ := p
      rw [encodePairList] at he
      cases hk : encodeStr k with
      | error e => rw [hk, except_bind_err] at he; exact Except.noConfusion he
      | ok ks =>
          rw [hk, except_bind_ok] at he
          cases hv : encodeVal v with
          | error e => rw [hv, except_bind_err] at he; exact Except.noConfusion he
          | ok vsB =>
              rw [hv, except_bind_ok] at he
              cases ht : encodePairList ps with
              | error e => rw [ht, except_bind_err] at he; exact Except.noConfusion he
              | ok tl =>
                  rw [ht, except_bind_ok] at he
                  injection he with h
                  subst h
                  have h1 := sizeV_lt_twice_length v vsB hv
                  have h2 := sizeVP_le_twice_length ps tl ht
                  obtain ⟨hklen, rfl⟩ := encodeStr_ok hk
                  simp only [sizeVP, List.length_append, List.length_cons, beBytes_length]
                  omega

end

mutual

theorem decodeVal_encodeVal (v : JVal) (fuel : Nat) (hf : sizeV v ≤ fuel)
    (bs rest : List Nat) (he : encodeVal v = .ok bs) :
    decodeVal fuel (bs ++ rest) = some (v, rest) := by
  obtain ⟨f, rfl⟩ : ∃ f, fuel = f + 1 := by
    have := sizeV_pos v
    cases fuel with
    | zero => omega
    | succ f => exact ⟨f, rfl⟩
  cases v with
  | null =>
      injection he with h
      subst h
      rfl
  | bool b =>
      cases b with
      | false =>
          injection he with h
          subst h
          rfl
      | true =>
          injection he with h
          subst h
          rfl
  | int n =>
      rw [encodeVal] at he
      split at he
      · rename_i hc
        injection he with h
        subst h
        simp only [List.cons_append, decodeVal]
        rw [readBE_beBytes_of_lt (emod_toNat_lt_i64 n)]
        show some (JVal.int (decodeTwos 8 ((n % (2 ^ 64 : Int)).toNat)), rest) = _
        rw [decodeTwos_emod_i64 n hc.1 hc.2]
      · exact Except.noConfusion he
  | str s =>
      rw [encodeVal] at he
      have h1 := readStr_encodeStr he rest
      obtain ⟨hlen, hbs⟩ := encodeStr_ok he
      subst hbs
      simp only [List.cons_append] at h1 ⊢
      simp only [decodeVal]
      rw [h1]
      rfl
  | arr xs =>
      rw [encodeVal] at he
      split at he
      · rename_i hlen
        cases hb : encodeValList xs with
        | error e => rw [hb, except_bind_err] at he; exact Except.noConfusion he
        | ok body =>
            rw [hb, except_bind_ok] at he
            injection he with h
            subst h
            have hfl : sizeVL xs ≤ f := by
              simp only [sizeV] at hf
              omega
            have hlt : xs.length < 256 ^ 4 := by
              have : (256 : Nat) ^ 4 = 2 ^ 32 := by norm_num
              omega
            simp only [List.cons_append, List.append_assoc, decodeVal]
            rw [readBE_beBytes_of_lt hlt]
            simp only [option_bind_some]
            rw [decodeValList_encodeValList xs f hfl body rest hb]
            rfl
      · exact Except.noConfusion he
  | obj ps =>
      rw [encodeVal] at he
      split at he
      · rename_i hlen
        cases hb : encodePairList ps with
        | error e => rw [hb, except_bind_err] at he; exact Except.noConfusion he
        | ok body =>
            rw [hb, except_bind_ok] at he
            injection he with h
            subst h
            have hfl : sizeVP ps ≤ f := by
              simp only [sizeV] at hf
              omega
            have hlt : ps.length < 256 ^ 4 := by
              have : (256 : Nat) ^ 4 = 2 ^ 32 := by norm_num
              omega
            simp only [List.cons_append, List.append_assoc, decodeVal]
            rw [readBE_beBytes_of_lt hlt]
            simp only [option_bind_some]
            rw [decodePairList_encodePairList ps f hfl body rest hb]
            rfl
      · exact Except.noConfusion he

theorem decodeValList_encodeValList (xs : List JVal) (fuel : Nat) (hf : sizeVL xs ≤ fuel)
    (bs rest : List Nat) (he : encodeValList xs = .ok bs) :
    decodeValList fuel xs.length (bs ++ rest) = some (xs, rest) := by
  cases xs with
  | nil =>
      injection he with h
      subst h
      simp [decodeValList]
  | cons v vs =>
      rw [encodeValList] at he
      cases hv : encodeVal v with
      | error e => rw [hv, except_bind_err] at he; exact Except.noConfusion he
      | ok hd =>
          rw [hv, except_bind_ok] at he
          cases ht : encodeValList vs with
          | error e => rw [ht, except_bind_err] at he; exact Except.noConfusion he
          | ok tl =>
              rw [ht, except_bind_ok] at he
              injection he with h
              subst h
              have hpos := sizeV_pos v
              simp only [sizeVL] at hf
              obtain ⟨f, rfl⟩ : ∃ f, fuel = f + 1 := by
                cases fuel with
                | zero => omega
                | succ f => exact ⟨f, rfl⟩
              simp only [List.length_cons, List.append_assoc, decodeValList]
              rw [decodeVal_encodeVal v f (by omega) hd (tl ++ rest) hv]
              simp only [option_bind_some]
              rw [decodeValList_encodeValList vs f (by omega) tl rest ht]
              rfl

theorem decodePairList_encodePairList (ps : List (String × JVal)) (fuel : Nat)
    (hf : sizeVP ps ≤ fuel) (bs rest : List Nat) (he : encodePairList ps = .ok bs) :
    decodePairList fuel ps.length (bs ++ rest) = some (ps, rest) := by
  cases ps with
  | nil =>
      injection he with h
      subst h
      simp [decodePairList]
  | cons p ps =>
      obtain ⟨k, v⟩ := p
      rw [encodePairList] at he
      cases hk : encodeStr k with
      | error e => rw [hk, except_bind_err] at he; exact Except.noConfusion he
      | ok ks =>
          rw [hk, except_bind_ok] at he
          cases hv : encodeVal v with
          | error e => rw [hv, except_bind_err] at he; exact Except.noConfusion he
          | ok vsB =>
              rw [hv, except_bind_ok] at he
              cases ht : encodePairList ps with
              | error e => rw [ht, except_bind_err] at he; exact Except.noConfusion he
              | ok tl =>
                  rw [ht, except_bind_ok] at he
                  injection he with h
                  subst h
                  have hpos := sizeV_pos v
                  simp only [sizeVP] at hf
                  obtain ⟨f, rfl⟩ : ∃ f, fuel = f + 1 := by
                    cases fuel with
                    | zero => omega
                    | succ f => exact ⟨f, rfl⟩
                  simp only [List.length_cons, List.append_assoc, decodePairList]
                  rw [readStr_encodeStr hk (vsB ++ (tl ++ rest))]
                  simp only [option_bind_some]
                  rw [decodeVal_encodeVal v f (by omega) vsB (tl ++ rest) hv]
                  simp only [option_bind_some]
                  rw [decodePairList_encodePairList ps f (by omega) tl rest ht]
                  rfl

end

theorem readBE_beBytes_nil {w n : Nat} (h : n < 256 ^ w) :
    readBE w 0 (beBytes w n) = some (n, []) := by
  have := readBE_beBytes_of_lt h []
  rwa [List.append_nil] at this

theorem encodeRecord_ok {r : Record} {bs : List Nat} (he : encodeRecord r = .ok bs) :
    (-(2 ^ 127) ≤ r.id ∧ r.id < 2 ^ 127)
    ∧ (-(2 ^ 63) ≤ r.expiry_date ∧ r.expiry_date < 2 ^ 63)
    ∧ ∃ dataB, encodeVal (.obj r.data) = .ok dataB
        ∧ bs = 221 :: beBytes 4 3
            ++ (212 :: beBytes 16 (r.id % (2 ^ 128 : Int)).toNat)
            ++ dataB
            ++ (211 :: beBytes 8 (r.expiry_date % (2 ^ 64 : Int)).toNat) := by
  rw [encodeRecord] at he
  split at he
  · rename_i hid
    split at he
    · rename_i hexp
      cases hDB : encodeVal (.obj r.data) with
      | error e => rw [hDB, except_bind_err] at he; exact Except.noConfusion he
      | ok dataB =>
          rw [hDB, except_bind_ok] at he
          injection he with h
          exact ⟨hid, hexp, dataB, rfl, h.symm⟩
    · exact Except.noConfusion he
  · exact Except.noConfusion he

set_option maxRecDepth 4000 in
/-- Round trip of the modelled codec at the record level. -/
theorem decodeRecord_encodeRecord {r : Record} {bs : List Nat}
    (he : encodeRecord r = .ok bs) : decodeRecord bs = some r := by
  obtain ⟨hid, hexp, dataB, hDB, rfl⟩ := encodeRecord_ok he
  have hsize := sizeV_lt_twice_length _ dataB hDB
  have hfuel : sizeV (.obj r.data)
      ≤ 2 * (dataB ++ (211 :: beBytes 8 (r.expiry_date % (2 ^ 64 : Int)).toNat)).length + 2 := by
    simp only [List.length_append, List.length_cons, beBytes_length]
    omega
  simp only [decodeRecord, List.cons_append, List.append_assoc,
    readBE_beBytes_of_lt (show (3 : Nat) < 256 ^ 4 by norm_num),
    readBE_beBytes_of_lt (emod_toNat_lt_i128 r.id),
    option_bind_some]
  rw [decodeVal_encodeVal (.obj r.data) _ hfuel dataB _ hDB]
  simp only [option_bind_some, readBE_beBytes_nil (emod_toNat_lt_i64 r.expiry_date)]
  simp only [decodeTwos_emod_i128 r.id hid.1 hid.2,
    decodeTwos_emod_i64 r.expiry_date hexp.1 hexp.2]
  simp

/-! ## The adapter: error taxonomy, key scheme, and the three operations -/

/-- Modelled from the spec: the framework's portable `session_store::Error`
enumeration — Backend, Decode, Encode — each carrying a human-readable
description (its source lives in tower-sessions-core, not under src/). -/
inductive SessionStoreError where
  | Backend (msg : String)
  | Decode (msg : String)
  | Encode (msg : String)
deriving DecidableEq, Repr

/-- The crate's internal error enum `RedisStoreError` (src/lib.rs 10-19);
each variant's payload is modelled by its rendered message string. -/
inductive RedisStoreError where
  | Redis (msg : String)
  | Decode (msg : String)
  | Encode (msg : String)
deriving DecidableEq, Repr

/-- The `From<RedisStoreError> for session_store::Error` conversion
(src/lib.rs 21-29): a total, variant-to-variant mapping. -/
def redisStoreErrorToSessionError : RedisStoreError → SessionStoreError
  | .Redis m => .Backend m
  | .Decode m => .Decode m
  | .Encode m => .Encode m

/-- Modelled from the spec: a session identifier (an `i128` in
tower-sessions-core). -/
abbrev Id := Int

/-- Modelled from the spec: the identifier's canonical string rendering
(the `Display` impl of `Id`, not under src/). -/
def idCanonical (id : Id) : String := toString id

/-- The backend key `format!("tower_session:{}", id)` built identically in
save (src/lib.rs 56), load (69) and delete (85). -/
def sessionKey (id : Id) : String := "tower_session:" ++ idCanonical id

/-- One Redis command as assembled by the adapter — the full argument list of
the single round trip each operation performs. -/
inductive RedisCmd where
  | set (key : String) (value : List Nat) (exat : Nat)
  | get (key : String)
  | del (key : String)
deriving DecidableEq, Repr

/-- The key a command addresses. -/
def RedisCmd.key : RedisCmd → String
  | .set k _ _ => k
  | .get k => k
  | .del k => k

/-- Backend state: each key holds stored bytes together with the absolute
expiration timestamp (the EXAT argument) they were set under. -/
def Backend := String → Option (List Nat × Nat)

/-- The empty backend. -/
def emptyBackend : Backend := fun _ => none

/-- Successful state effect of one command: SET stores value and expiration
at its key, DEL removes its key, GET changes nothing. -/
def applyCmd (b : Backend) : RedisCmd → Backend
  | .set k v t => fun q => if q = k then some (v, t) else b q
  | .get _ => b
  | .del k => fun q => if q = k then none else b q

/-- GET visibility under absolute expiration: a key set with `EXAT t` is
visible strictly before time `t` and gone from `t` on. -/
def getLive (now : Nat) (b : Backend) (k : String) : Option (List Nat) :=
  match b k with
  | some (v, t) => if now < t then some v else none
  | none => none

/-- Outcome of one adapter operation: the backend commands it issued, its
returned result, and the backend state afterwards. -/
structure OpResult (α : Type) where
  cmds : List RedisCmd
  res : Except SessionStoreError α
  backend : Backend

/-- The `save` operation (src/lib.rs 53-64): take the record's i64 unix
timestamp, serialize the record — an encode failure returns through the `?`
before any command is issued — then issue the single
`SET key bytes EXAT (expire as usize)` command. The `as usize` cast is
modelled as reduction of the i64 modulo 2^64. `net` models the outcome of the
one network round trip (`Some msg` = a `redis::RedisError`). -/
def save (net : Option String) (b : Backend) (record : Record) : OpResult Unit :=
  let expire : Int := record.expiry_date
  match encodeRecord record with
  | .error e => ⟨[], .error (redisStoreErrorToSessionError (.Encode e)), b⟩
  | .ok bytes =>
      let cmd := RedisCmd.set (sessionKey record.id) bytes
        ((expire % (2 ^ 64 : Int)).toNat)
      match net with
      | some m => ⟨[cmd], .error (redisStoreErrorToSessionError (.Redis m)), b⟩
      | none => ⟨[cmd], .ok (), applyCmd b cmd⟩

/-- The `load` operation (src/lib.rs 66-80): one GET; an absent key is the
`Ok(None)` outcome; returned bytes are deserialized, a failure surfacing as
the Decode error. -/
def load (net : Option String) (now : Nat) (b : Backend) (session_id : Id) :
    OpResult (Option Record) :=
  let cmd := RedisCmd.get (sessionKey session_id)
  match net with
  | some m => ⟨[cmd], .error (redisStoreErrorToSessionError (.Redis m)), b⟩
  | none =>
      match getLive now b (sessionKey session_id) with
      | some data =>
          match decodeRecord data with
          | some r => ⟨[cmd], .ok (some r), b⟩
          | none =>
              ⟨[cmd], .error (redisStoreErrorToSessionError
                (.Decode "invalid record encoding")), b⟩
      | none => ⟨[cmd], .ok none, b⟩

/-- The `delete` operation (src/lib.rs 82-90): one DEL, result discarded, so
it succeeds whether or not the key existed. -/
def delete (net : Option String) (b : Backend) (session_id : Id) : OpResult Unit :=
  let cmd := RedisCmd.del (sessionKey session_id)
  match net with
  | some m => ⟨[cmd], .error (redisStoreErrorToSessionError (.Redis m)), b⟩
  | none => ⟨[cmd], .ok (), applyCmd b cmd⟩

/-! ## Concrete data for witnesses -/

/-- A demonstration record with nested payload structure. -/
def rDemo : Record :=
  ⟨7, [("user", .str "ab"),
       ("nums", .arr [.int 1, .int (-2), .bool true, .null]),
       ("meta", .obj [("x", .int 3)])], 1700000000⟩

/-- The encoding of `rDemo`. -/
def rDemoBytes : List Nat := (encodeRecord rDemo).toOption.getD []

/-- A record whose expiry is the negative unix timestamp −1. -/
def rNeg : Record := ⟨1, [], -1⟩

/-- The encoding of `rNeg`. -/
def rNegBytes : List Nat := (encodeRecord rNeg).toOption.getD []

/-- A record whose expiry does not fit an i64, so encoding fails. -/
def rBad : Record := ⟨1, [], 2 ^ 63⟩

/-- A backend holding undecodable bytes at the key of session 9. -/
def bBad : Backend := fun k => if k = sessionKey 9 then some ([0], 5) else none

/-- A backend holding the encoding of `rDemo` (id 7) at the key of session 3. -/
def bMis : Backend := fun k => if k = sessionKey 3 then some (rDemoBytes, 5) else none

/-! ## The claims -/


theorem save_ok_eq (b : Backend) (r : Record) (bs : List Nat)
    (he : encodeRecord r = .ok bs) :
    save none b r
      = ⟨[RedisCmd.set (sessionKey r.id) bs ((r.expiry_date % (2 ^ 64 : Int)).toNat)],
         .ok (),
         applyCmd b (RedisCmd.set (sessionKey r.id) bs
           ((r.expiry_date % (2 ^ 64 : Int)).toNat))⟩ := by
  simp only [save, he]

theorem applyCmd_set_self (b : Backend) (k : String) (v : List Nat) (t : Nat) :
    applyCmd b (.set k v t) k = some (v, t) := by
  simp [applyCmd]

theorem getLive_some {b : Backend} {k : String} {v : List Nat} {t now : Nat}
    (hb : b k = some (v, t)) (h : now < t) : getLive now b k = some v := by
  simp [getLive, hb, h]

theorem load_ok_of_decode {now : Nat} {b : Backend} {id : Id} {bytes : List Nat}
    {r' : Record} (hg : getLive now b (sessionKey id) = some bytes)
    (hd : decodeRecord bytes = some r') :
    (load none now b id).res = .ok (some r') := by
  simp [load, hg, hd]

theorem load_cmds (net : Option String) (now : Nat) (b : Backend) (id : Id) :
    (load net now b id).cmds = [RedisCmd.get (sessionKey id)] := by
  simp only [load]
  cases net with
  | some m => rfl
  | none =>
      cases hg : getLive now b (sessionKey id) with
      | none => simp [hg]
      | some data =>
          simp only [hg]
          cases hd : decodeRecord data with
          | none => simp [hd]
          | some r0 => simp [hd]

theorem load_backend_unchanged (net : Option String) (now : Nat) (b : Backend)
    (id : Id) : (load net now b id).backend = b := by
  simp only [load]
  cases net with
  | some m => rfl
  | none =>
      cases hg : getLive now b (sessionKey id) with
      | none => simp [hg]
      | some data =>
          simp only [hg]
          cases hd : decodeRecord data with
          | none => simp [hd]
          | some r0 => simp [hd]

theorem delete_cmds (net : Option String) (b : Backend) (id : Id) :
    (delete net b id).cmds = [RedisCmd.del (sessionKey id)] := by
  cases net <;> rfl

/-- C9: when serialization of the record fails, save returns the Encode error
having issued no backend command, and the backend state — this key and every
other — is untouched. -/
theorem save_encode_error_atomic (net : Option String) (b : Backend) (r : Record)
    (e : String) (he : encodeRecord r = .error e) :
    (save net b r).cmds = []
    ∧ (save net b r).res = .error (SessionStoreError.Encode e)
    ∧ (save net b r).backend = b := by
  simp [save, he, redisStoreErrorToSessionError]

/-- C1 (amended): for a record with a negative expiry timestamp, save performs
no client-side validation and surfaces no encoding error: when serialization
succeeds it issues the single SET command with the expiry wrapped by the
`as usize` cast to `T + 2^64`, reporting success for a successful round trip;
whether such an EXAT value is rejected is left to the backend. -/
theorem save_negative_expiry_passes_wrapped (b : Backend) (r : Record)
    (bs : List Nat) (hneg : r.expiry_date < 0) (he : encodeRecord r = .ok bs) :
    (save none b r).cmds
      = [RedisCmd.set (sessionKey r.id) bs (r.expiry_date + 2 ^ 64).toNat]
    ∧ (save none b r).res = .ok () := by
  have hrange := (encodeRecord_ok he).2.1
  have harg : ((r.expiry_date % (2 ^ 64 : Int)).toNat)
      = (r.expiry_date + 2 ^ 64).toNat := by omega
  rw [save_ok_eq b r bs he, harg]
  exact ⟨rfl, rfl⟩

/-- C2: for a record with non-negative expiry T, save issues exactly one SET
command whose expiration argument is the absolute timestamp T itself, storing
it at the key; saving the same id again replaces the stored expiration with
the new absolute value. -/
theorem save_exat_absolute (b : Backend) (r : Record) (bs : List Nat)
    (h0 : 0 ≤ r.expiry_date) (he : encodeRecord r = .ok bs) :
    (save none b r).cmds = [RedisCmd.set (sessionKey r.id) bs r.expiry_date.toNat]
    ∧ (save none b r).backend (sessionKey r.id) = some (bs, r.expiry_date.toNat)
    ∧ ∀ (r2 : Record) (bs2 : List Nat), r2.id = r.id → 0 ≤ r2.expiry_date →
        encodeRecord r2 = .ok bs2 →
        (save none (save none b r).backend r2).backend (sessionKey r.id)
          = some (bs2, r2.expiry_date.toNat) := by
  have hrange := (encodeRecord_ok he).2.1
  have harg : ((r.expiry_date % (2 ^ 64 : Int)).toNat) = r.expiry_date.toNat := by
    omega
  refine ⟨?_, ?_, ?_⟩
  · rw [save_ok_eq b r bs he, harg]
  · rw [save_ok_eq b r bs he, harg]
    exact applyCmd_set_self b (sessionKey r.id) bs r.expiry_date.toNat
  · intro r2 bs2 hid h02 he2
    have hrange2 := (encodeRecord_ok he2).2.1
    have harg2 : ((r2.expiry_date % (2 ^ 64 : Int)).toNat) = r2.expiry_date.toNat := by
      omega
    rw [save_ok_eq _ r2 bs2 he2, harg2, ← hid]
    exact applyCmd_set_self _ (sessionKey r2.id) bs2 r2.expiry_date.toNat

/-- C3: decoding the bytes produced by encoding a valid session record yields
the record back exactly — id, payload sub-structure, and expiry preserved. -/
theorem decode_encode_roundtrip (r : Record) (bs : List Nat)
    (he : encodeRecord r = .ok bs) : decodeRecord bs = some r :=
  decodeRecord_encodeRecord he

/-- C4: after a successful save, load of the same id (before expiration, with
no intervening operation) returns exactly the saved record; and after two
saves to the same id the later record is the one returned. -/
theorem save_then_load_returns_record (b : Backend) (r : Record) (bs : List Nat)
    (now : Nat) (he : encodeRecord r = .ok bs) (h0 : 0 ≤ r.expiry_date)
    (hlive : now < r.expiry_date.toNat) :
    (load none now (save none b r).backend r.id).res = .ok (some r)
    ∧ ∀ (r1 : Record) (bs1 : List Nat), r1.id = r.id → encodeRecord r1 = .ok bs1 →
        (load none now (save none (save none b r1).backend r).backend r.id).res
          = .ok (some r) := by
  have hrange := (encodeRecord_ok he).2.1
  have harg : ((r.expiry_date % (2 ^ 64 : Int)).toNat) = r.expiry_date.toNat := by
    omega
  have hdec := decodeRecord_encodeRecord he
  constructor
  · have hbk : (save none b r).backend (sessionKey r.id)
        = some (bs, r.expiry_date.toNat) := by
      rw [save_ok_eq b r bs he, harg]
      exact applyCmd_set_self b (sessionKey r.id) bs r.expiry_date.toNat
    exact load_ok_of_decode (getLive_some hbk hlive) hdec
  · intro r1 bs1 hid he1
    have hbk : (save none (save none b r1).backend r).backend (sessionKey r.id)
        = some (bs, r.expiry_date.toNat) := by
      rw [save_ok_eq _ r bs he, harg]
      exact applyCmd_set_self _ (sessionKey r.id) bs r.expiry_date.toNat
    exact load_ok_of_decode (getLive_some hbk hlive) hdec

/-- C5: load of an id whose backend key is absent or already expired returns
Ok none — the normal no-session outcome, not an error. -/
theorem load_absent_returns_none (now : Nat) (b : Backend) (id : Id)
    (h : b (sessionKey id) = none
        ∨ ∃ v t, b (sessionKey id) = some (v, t) ∧ t ≤ now) :
    (load none now b id).res = .ok none := by
  have hg : getLive now b (sessionKey id) = none := by
    cases h with
    | inl h => simp [getLive, h]
    | inr h =>
        obtain ⟨v, t, hbt, hle⟩ := h
        simp only [getLive, hbt]
        simp
        omega
  simp [load, hg]

/-- C6: bytes stored at a session's key that do not decode as a record make
load return the Decode error — never Ok none — and the error conversion maps
the internal Decode variant to the framework's distinct Decode kind. -/
theorem load_decode_failure_distinct (now : Nat) (b : Backend) (id : Id)
    (bytes : List Nat) (t : Nat) (hstore : b (sessionKey id) = some (bytes, t))
    (hlive : now < t) (hbad : decodeRecord bytes = none) :
    (load none now b id).res
      = .error (SessionStoreError.Decode "invalid record encoding")
    ∧ ∀ m, redisStoreErrorToSessionError (.Decode m) = SessionStoreError.Decode m := by
  have hg : getLive now b (sessionKey id) = some bytes :=
    getLive_some hstore hlive
  exact ⟨by simp [load, hg, hbad, redisStoreErrorToSessionError], fun m => rfl⟩

/-- C7: delete succeeds whether or not the key exists — two consecutive
deletes of the same id both succeed and leave the key absent — and the only
failure delete can return is the Backend (communication) error, never a
decode or encode error. -/
theorem delete_idempotent_backend_error_only (b : Backend) (id : Id) :
    (delete none b id).res = .ok ()
    ∧ (delete none (delete none b id).backend id).res = .ok ()
    ∧ (delete none (delete none b id).backend id).backend (sessionKey id) = none
    ∧ ∀ net : Option String,
        (delete net b id).res = .ok ()
        ∨ ∃ m, (delete net b id).res = .error (SessionStoreError.Backend m) := by
  refine ⟨rfl, rfl, ?_, ?_⟩
  · simp [delete, applyCmd]
  · intro net
    cases net with
    | none => exact Or.inl rfl
    | some m => exact Or.inr ⟨m, rfl⟩

/-- C8: each operation addresses the backend solely through the key
`"tower_session:" ++ canonical id`: every command any operation issues bears
exactly that key, and no other key's state is ever changed. -/
theorem operations_single_key_scheme (b : Backend) (r : Record) (id : Id)
    (net : Option String) (now : Nat) :
    sessionKey id = "tower_session:" ++ idCanonical id
    ∧ (∀ c ∈ (save net b r).cmds, RedisCmd.key c = sessionKey r.id)
    ∧ (∀ c ∈ (load net now b id).cmds, RedisCmd.key c = sessionKey id)
    ∧ (∀ c ∈ (delete net b id).cmds, RedisCmd.key c = sessionKey id)
    ∧ (∀ k, k ≠ sessionKey r.id → (save net b r).backend k = b k)
    ∧ (∀ k, k ≠ sessionKey id → (load net now b id).backend k = b k)
    ∧ (∀ k, k ≠ sessionKey id → (delete net b id).backend k = b k) := by
  refine ⟨rfl, ?_, ?_, ?_, ?_, ?_, ?_⟩
  · intro c hc
    cases henc : encodeRecord r with
    | error e => simp [save, henc] at hc
    | ok bs =>
        cases net with
        | some m =>
            simp only [save, henc] at hc
            simp at hc
            subst hc
            rfl
        | none =>
            simp only [save, henc] at hc
            simp at hc
            subst hc
            rfl
  · intro c hc
    rw [load_cmds] at hc
    simp at hc
    subst hc
    rfl
  · intro c hc
    rw [delete_cmds] at hc
    simp at hc
    subst hc
    rfl
  · intro k hk
    cases henc : encodeRecord r with
    | error e => simp [save, henc]
    | ok bs =>
        cases net with
        | some m => simp [save, henc]
        | none => simp [save, henc, applyCmd, hk]
  · intro k hk
    rw [load_backend_unchanged]
  · intro k hk
    cases net with
    | some m => rfl
    | none => simp [delete, applyCmd, hk]

/-- C10: load does not compare the decoded record's id with the requested id:
bytes at the computed key that decode to a record bearing a different id are
returned unchanged as Ok (some record). -/
theorem load_returns_mismatched_id (now : Nat) (b : Backend) (id : Id)
    (bytes : List Nat) (t : Nat) (r' : Record)
    (hstore : b (sessionKey id) = some (bytes, t)) (hlive : now < t)
    (hdec : decodeRecord bytes = some r') (hne : r'.id ≠ id) :
    (load none now b id).res = .ok (some r') :=
  load_ok_of_decode (getLive_some hstore hlive) hdec

set_option maxRecDepth 100000 in
/-- C1 (counterexample): saving the record with id 1, empty data and expiry −1
succeeds — no backend/encoding error is surfaced — and the single SET command
carries the EXAT argument 2^64 − 1 = 18446744073709551615, not the expiry the
record was given: the `as usize` cast silently alters a negative timestamp. -/
theorem save_negative_expiry_claim_refuted :
    (save none emptyBackend rNeg).res = .ok ()
    ∧ (save none emptyBackend rNeg).cmds
        = [RedisCmd.set (sessionKey rNeg.id) rNegBytes 18446744073709551615] :=
  ⟨rfl, rfl⟩

set_option maxRecDepth 100000 in
/-- Witness for `save_negative_expiry_passes_wrapped` at `rNeg`. -/
theorem save_negative_expiry_passes_wrapped_witness :
    (save none emptyBackend rNeg).cmds
      = [RedisCmd.set (sessionKey rNeg.id) rNegBytes (rNeg.expiry_date + 2 ^ 64).toNat]
    ∧ (save none emptyBackend rNeg).res = .ok () :=
  save_negative_expiry_passes_wrapped emptyBackend rNeg rNegBytes (by decide) (by rfl)

set_option maxRecDepth 100000 in
/-- Witness for `save_exat_absolute` at `rDemo` (expiry 1700000000). -/
theorem save_exat_absolute_witness :
    (save none emptyBackend rDemo).cmds
      = [RedisCmd.set (sessionKey rDemo.id) rDemoBytes rDemo.expiry_date.toNat]
    ∧ (save none emptyBackend rDemo).backend (sessionKey rDemo.id)
      = some (rDemoBytes, rDemo.expiry_date.toNat)
    ∧ ∀ (r2 : Record) (bs2 : List Nat), r2.id = rDemo.id → 0 ≤ r2.expiry_date →
        encodeRecord r2 = .ok bs2 →
        (save none (save none emptyBackend rDemo).backend r2).backend
          (sessionKey rDemo.id) = some (bs2, r2.expiry_date.toNat) :=
  save_exat_absolute emptyBackend rDemo rDemoBytes (by decide) (by rfl)

set_option maxRecDepth 100000 in
/-- Witness for `decode_encode_roundtrip` at `rDemo`, whose payload has
nested array, map, string, boolean, null and negative-integer structure. -/
theorem decode_encode_roundtrip_witness : decodeRecord rDemoBytes = some rDemo :=
  decode_encode_roundtrip rDemo rDemoBytes (by rfl)

set_option maxRecDepth 100000 in
/-- Witness for `save_then_load_returns_record` at `rDemo`. -/
theorem save_then_load_returns_record_witness :
    (load none 0 (save none emptyBackend rDemo).backend rDemo.id).res
      = .ok (some rDemo)
    ∧ ∀ (r1 : Record) (bs1 : List Nat), r1.id = rDemo.id →
        encodeRecord r1 = .ok bs1 →
        (load none 0 (save none (save none emptyBackend r1).backend rDemo).backend
          rDemo.id).res = .ok (some rDemo) :=
  save_then_load_returns_record emptyBackend rDemo rDemoBytes 0 (by rfl) (by decide)
    (by decide)

/-- Witness for `load_absent_returns_none` on the empty backend. -/
theorem load_absent_returns_none_witness :
    (load none 0 emptyBackend 42).res = .ok none :=
  load_absent_returns_none 0 emptyBackend 42 (Or.inl rfl)

/-- Witness for `load_decode_failure_distinct` on the byte `[0]`, which is not
a valid record encoding. -/
theorem load_decode_failure_distinct_witness :
    (load none 0 bBad 9).res
      = .error (SessionStoreError.Decode "invalid record encoding")
    ∧ ∀ m, redisStoreErrorToSessionError (.Decode m) = SessionStoreError.Decode m :=
  load_decode_failure_distinct 0 bBad 9 [0] 5 (by rfl) (by decide) (by rfl)

set_option maxRecDepth 100000 in
/-- Witness for `save_encode_error_atomic` at `rBad`, whose expiry 2^63 does
not fit an i64. -/
theorem save_encode_error_atomic_witness :
    (save none emptyBackend rBad).cmds = []
    ∧ (save none emptyBackend rBad).res
      = .error (SessionStoreError.Encode "expiry out of range")
    ∧ (save none emptyBackend rBad).backend = emptyBackend :=
  save_encode_error_atomic none emptyBackend rBad "expiry out of range" (by rfl)

set_option maxRecDepth 100000 in
/-- Witness for `load_returns_mismatched_id`: the key of session 3 holds the
encoding of `rDemo`, whose id is 7; load 3 returns that record unchanged. -/
theorem load_returns_mismatched_id_witness :
    (load none 0 bMis 3).res = .ok (some rDemo) :=
  load_returns_mismatched_id 0 bMis 3 rDemoBytes 5 rDemo (by rfl) (by decide)
    (by rfl) (by decide)
